import Mathlib

set_option maxRecDepth 8192

/-!
Shallow embedding of `.github/scripts/update_checker.py` (class `UpdateChecker`).

Conventions of the embedding:
* Python strings are Lean `String`s; character-level work is done on `List Char`.
* `\d` in the script's regexes is modelled by `Char.isDigit` (the filenames and
  URLs the script handles are ASCII).
* The regex patterns used by `extract_version_from_filename` are simple enough
  that Python's leftmost search with greedy `\d+` is equivalent to a
  maximal-munch matcher tried at every start position, scanning left to right;
  the matchers below implement exactly that.
* I/O effects (HTTP fetch, hashing a download, file writes, the
  `GITHUB_OUTPUT` results channel) are modelled by explicit inputs and by
  returning the written data: a digest oracle `String → Option String` stands
  for `calculate_sha256`, and `run` returns the list of file writes and the
  list of lines appended to the results channel.
* YAML documents are modelled by the tree type `YVal`; `yaml.safe_load` /
  `yaml.dump` round-trips are identified with structural equality on `YVal`
  (key order is preserved by the script's `sort_keys=False`, and by the
  insertion-order model of `mapSet` below).
* Python exceptions caught by the `try/except` of an update function make it
  return `False` and skip the file write, exactly like a normal `False`
  return; both are modelled by `none`.
-/

namespace UpdateChecker

/-! ## Character-list primitives (Python `str` operations) -/

/-- Python `pattern in s` (substring test), on character lists. -/
def listInfixOf (pat : List Char) : List Char → Bool
  | [] => pat.isEmpty
  | c :: cs => pat.isPrefixOf (c :: cs) || listInfixOf pat cs

/-- Python `s.replace(pat, rep)`: replace all non-overlapping occurrences,
left to right.  (Never called with an empty `pat` by the script.)  The `fuel`
argument only drives structural recursion; every step consumes at least one
character of `s`, so `fuel = s.length` never runs out. -/
def listReplaceF (pat rep : List Char) : Nat → List Char → List Char
  | _, [] => []
  | 0, s => s
  | fuel + 1, c :: cs =>
    match pat with
    | [] => c :: cs
    | p :: ps =>
      if (p :: ps).isPrefixOf (c :: cs) then
        rep ++ listReplaceF (p :: ps) rep fuel (cs.drop ps.length)
      else
        c :: listReplaceF (p :: ps) rep fuel cs

/-- Python `s.replace(pat, rep)` on character lists. -/
def listReplace (pat rep s : List Char) : List Char :=
  listReplaceF pat rep s.length s

/-- Python `pattern in s` on `String`s. -/
def strContains (s pat : String) : Bool := listInfixOf pat.toList s.toList

/-- Python `s.startswith(pre)`. -/
def strStartsWith (s pre : String) : Bool := pre.toList.isPrefixOf s.toList

/-- Python `s.replace(pat, rep)` on `String`s. -/
def strReplace (s pat rep : String) : String :=
  (listReplace pat.toList rep.toList s.toList).asString

/-- Python `s.split(".")` for the single-character separator `'.'`:
`splitDots [] = [[]]`, and a leading `'.'` opens a new (initially empty)
component. -/
def splitDots : List Char → List (List Char)
  | [] => [[]]
  | c :: cs =>
    if c = '.' then [] :: splitDots cs
    else
      match splitDots cs with
      | [] => [[c]]
      | h :: t => (c :: h) :: t

/-! ## Regex matchers for `extract_version_from_filename`

Each `match*` function tries its pattern anchored at the start of the list and
returns the captured text; `searchAux` tries every start position from the
left, like `re.search`. -/

/-- Match `\d+(\.\d+){k-1}` (k dot-separated digit runs) at the start of the
list, maximal-munch, returning the matched text. -/
def matchRuns : Nat → List Char → Option (List Char)
  | 0, _ => none
  | 1, cs =>
    let r := cs.takeWhile Char.isDigit
    if r = [] then none else some r
  | k + 2, cs =>
    let r := cs.takeWhile Char.isDigit
    if r = [] then none
    else
      match cs.dropWhile Char.isDigit with
      | '.' :: rest => (matchRuns (k + 1) rest).map (fun m => r ++ '.' :: m)
      | _ => none

/-- Match `\d{4}` (four consecutive digits) at the start of the list. -/
def matchFourDigits : List Char → Option (List Char)
  | a :: b :: c :: d :: _ =>
    if a.isDigit && b.isDigit && c.isDigit && d.isDigit then some [a, b, c, d]
    else none
  | _ => none

/-- Greedy extension `(\.\d+)*`, maximal, used by the generic
`\d+(?:\.\d+)+` pattern; returns the consumed text.  The `fuel` argument only
drives structural recursion; every step consumes at least two characters, so
`fuel = cs.length` never runs out. -/
def chainExtF : Nat → List Char → List Char
  | 0, _ => []
  | fuel + 1, cs =>
    match cs with
    | '.' :: rest =>
      let r := rest.takeWhile Char.isDigit
      if r = [] then []
      else '.' :: r ++ chainExtF fuel (rest.dropWhile Char.isDigit)
    | _ => []

/-- Greedy extension `(\.\d+)*` at the start of the list. -/
def chainExt (cs : List Char) : List Char :=
  chainExtF cs.length cs

/-- Match the generic pattern `\d+(?:\.\d+)+` (at least two dot-separated
digit runs, greedy) at the start of the list. -/
def matchChain (cs : List Char) : Option (List Char) :=
  let r := cs.takeWhile Char.isDigit
  if r = [] then none
  else
    let ext := chainExt (cs.dropWhile Char.isDigit)
    if ext = [] then none else some (r ++ ext)

/-- `re.search`: try the matcher at each start position, left to right.
(All patterns used require at least one digit, so the empty tail position
never matches and is not tried.) -/
def searchAux (m : List Char → Option (List Char)) : List Char → Option (List Char)
  | [] => none
  | c :: cs =>
    match m (c :: cs) with
    | some r => some r
    | none => searchAux m cs

/-- `re.search(r"(\d+(\.\d+){k-1})", ·)`. -/
def searchRuns (k : Nat) (cs : List Char) : Option (List Char) :=
  searchAux (matchRuns k) cs

/-- `re.search(r"(\d{4})", ·)`. -/
def searchFourDigits (cs : List Char) : Option (List Char) :=
  searchAux matchFourDigits cs

/-- `re.search` with the generic dotted pattern. -/
def searchChain (cs : List Char) : Option (List Char) :=
  searchAux matchChain cs

/-- `UpdateChecker.extract_version_from_filename` (lines 114-135): try the
Vivaldi 4-part pattern first, then the fallback patterns in the listed order:
bare 4-digit number, 3-part dotted, 2-part dotted, generic dotted. -/
def extract_version_from_filename (filename : String) : Option String :=
  match searchRuns 4 filename.toList with
  | some v => some v.asString
  | none =>
    match searchFourDigits filename.toList with
    | some v => some v.asString
    | none =>
      match searchRuns 3 filename.toList with
      | some v => some v.asString
      | none =>
        match searchRuns 2 filename.toList with
        | some v => some v.asString
        | none =>
          match searchChain filename.toList with
          | some v => some v.asString
          | none => none

/-! ## `update_package_version` (version normalization, lines 83-101)

The current date (`datetime.now().strftime("%m%d")`) is passed in as the
`date` argument. -/

/-- The normalized version string computed by
`UpdateChecker.update_package_version` (lines 86-101): split the incoming
build version on `.`; with ≥ 3 components keep the first three and append the
date, with 2 components pad one `0`, with 1 component pad two `0`s; the final
branch is Python's unreachable `else` default. -/
def update_package_version (newBuildVersion : String) (date : String) : String :=
  match splitDots newBuildVersion.toList with
  | a :: b :: c :: _ =>
    (a ++ '.' :: (b ++ '.' :: (c ++ '.' :: date.toList))).asString
  | [a, b] => (a ++ '.' :: (b ++ '.' :: ('0' :: '.' :: date.toList))).asString
  | [a] => (a ++ '.' :: '0' :: '.' :: '0' :: '.' :: date.toList).asString
  | [] => (newBuildVersion.toList ++ '.' :: '0' :: '.' :: '0' :: '.' :: date.toList).asString

/-! ## `fetch_latest_version` (lines 50-68)

The HTTP GET is modelled by a `FetchResponse` input; the configured regex
`version_pattern` (applied with `re.search(...)` and `.group(1)`) is modelled
by an oracle `String → Option String` on the fetched body. -/

/-- Outcome of `urllib.request.urlopen` on the version URL: either the decoded
body, or a `urllib.error.URLError`. -/
inductive FetchResponse where
  | ok : String → FetchResponse
  | urlError : FetchResponse

/-- `UpdateChecker.fetch_latest_version` (lines 50-68): `none` when the URL is
unconfigured, when the network call fails (`URLError`), or when the pattern
does not match the body; otherwise the captured group. -/
def fetch_latest_version (versionUrl : String) (resp : FetchResponse)
    (patSearch : String → Option String) : Option String :=
  if versionUrl = "" then none
  else
    match resp with
    | .urlError => none
    | .ok html =>
      match patSearch html with
      | some v => some v
      | none => none

/-! ## YAML document model -/

/-- A parsed YAML value: scalar, mapping (insertion-ordered key/value list),
or sequence. -/
inductive YVal where
  | str : String → YVal
  | map : List (String × YVal) → YVal
  | seq : List YVal → YVal

/-- Python truthiness of a YAML value (`if not x`): empty string, empty dict
and empty list are falsy. -/
def truthy : YVal → Bool
  | .str v => v != ""
  | .map m => !m.isEmpty
  | .seq l => !l.isEmpty

/-- Python `d.get(k)` on an insertion-ordered dict. -/
def mapGet (m : List (String × YVal)) (k : String) : Option YVal :=
  match m with
  | [] => none
  | (k', v) :: rest => if k' = k then some v else mapGet rest k

/-- Python `d[k] = v` on an insertion-ordered dict: overwrite in place, or
append a new key at the end. -/
def mapSet (m : List (String × YVal)) (k : String) (v : YVal) : List (String × YVal) :=
  match m with
  | [] => [(k, v)]
  | (k', v') :: rest => if k' = k then (k, v) :: rest else (k', v') :: mapSet rest k v

/-! ## The YAML update functions (lines 162-267 and 269-361)

`update_yaml_file` and `update_yaml_file_with_github_url` differ only in how
the new download URL is built from the matched source record's URL; the shared
body is `updateDoc`, parameterized by that URL builder (`mkUrl`).
`calculate_sha256` (lines 70-81) is modelled by the oracle `digestOf`; `none`
stands for its falsy `None` failure return. -/

/-- Architecture detection (lines 194-196 and 300-302): `arm64` if the source
record's URL mentions `arm64` or `aarch64`, else `amd64`. -/
def archOf (url : String) : String :=
  if strContains url "arm64" || strContains url "aarch64" then "arm64" else "amd64"

/-- Python `template.format(version=..., arch=...)` for templates using the
`{version}` and `{arch}` placeholders. -/
def formatTemplate (tmpl version arch : String) : String :=
  strReplace (strReplace tmpl "{version}" version) "{arch}" arch

/-- The mirror/proxy prefix of line 212. -/
def proxyPre : String := "https://edgeone.gh-proxy.com/"

/-- Proxy-prefix step of lines 211-214: prepend the proxy prefix unless the
URL already starts with it. -/
def addProxy (newUrl : String) : String :=
  if !strStartsWith newUrl proxyPre then proxyPre ++ newUrl else newUrl

/-- URL derivation of `update_yaml_file_with_github_url` (lines 201-214):
substitute `{arch}` if present, otherwise replace `amd64` by `arm64` only
when the record's architecture is `arm64` and the URL contains `amd64`;
finally apply the proxy-prefix step. -/
def deriveGithubUrl (githubUrl arch : String) : String :=
  addProxy
    (if strContains githubUrl "{arch}" then strReplace githubUrl "{arch}" arch
     else
       if arch = "arm64" && strContains githubUrl "amd64" then
         strReplace githubUrl "amd64" "arm64"
       else githubUrl)

/-- One iteration of the source-update loop (lines 284-324, resp. 177-230):
`some none` models `continue` (missing/falsy name or url, no extractable
version, or failed digest), `none` models an exception escaping to the
enclosing `except` (a truthy non-string `url` reaching `re.search`, or a
truthy non-string `name` reaching `name.replace`), and `some (some _)`
returns the updated record together with the old and new file names. -/
def tryUpdateSource (digestOf : String → Option String) (mkUrl : String → String)
    (newVersion : String) (m : List (String × YVal)) :
    Option (Option (List (String × YVal) × String × String)) :=
  let nameV := (mapGet m "name").getD (.str "")
  let urlV := (mapGet m "url").getD (.str "")
  if !truthy nameV || !truthy urlV then some none
  else
    match urlV with
    | .str url =>
      match extract_version_from_filename url with
      | none => some none
      | some currentVersion =>
        match nameV with
        | .str name =>
          let newUrl := mkUrl url
          let newName := strReplace name currentVersion newVersion
          match digestOf newUrl with
          | none => some none
          | some newDigest =>
            some (some
              (mapSet (mapSet (mapSet m "url" (.str newUrl)) "digest" (.str newDigest))
                "name" (.str newName),
               name, newName))
        | _ => none
    | _ => none

/-- The `for i, source in enumerate(sources)` loop: update the first record
that passes all checks, keep earlier (skipped) records in place, stop at the
first exception; `none` when no record was updated (or an exception), mirrors
returning `False`. -/
def updateSources (digestOf : String → Option String) (mkUrl : String → String)
    (newVersion : String) : List YVal → Option (List YVal × String × String)
  | [] => none
  | x :: rest =>
    match x with
    | .map m =>
      match tryUpdateSource digestOf mkUrl newVersion m with
      | none => none
      | some none =>
        (updateSources digestOf mkUrl newVersion rest).map
          (fun r => (x :: r.1, r.2.1, r.2.2))
      | some (some (m', name, newName)) => some (YVal.map m' :: rest, name, newName)
    | _ => none

/-- The `package` half of `update_package_version` (lines 103-109): set
`package.version` to the normalized version if a `package` mapping exists,
otherwise warn and leave the document alone. -/
def pkgStep (newVersion date : String) (t : List (String × YVal)) : List (String × YVal) :=
  match mapGet t "package" with
  | some (.map pm) =>
    mapSet t "package" (.map (mapSet pm "version" (.str (update_package_version newVersion date))))
  | _ => t

/-- The `build` file-name sync (lines 239-249, resp. 333-343): if a textual
`build` field exists, replace every occurrence of the old file name by the
new one (`re.sub` over the `re.escape`d old name is a literal replacement).  -/
def buildStep (name newName : String) (t : List (String × YVal)) : List (String × YVal) :=
  match mapGet t "build" with
  | some (.str b) => mapSet t "build" (.str (strReplace b name newName))
  | _ => t

/-- Shared body of the two YAML update functions: parse (the input `doc`),
update the first eligible source record, then `update_package_version`
(lines 103-109: only if a `package` mapping exists), then the textual `build`
file-name sync, and finally the dump/write (the returned document).
`none` means the function returned `False` and the file was not written. -/
def updateDoc (digestOf : String → Option String) (mkUrl : String → String)
    (newVersion date : String) (doc : YVal) : Option YVal :=
  match doc with
  | .map top =>
    let sources := (mapGet top "sources").getD (.seq [])
    if !truthy sources then none
    else
      match sources with
      | .seq srcs =>
        match updateSources digestOf mkUrl newVersion srcs with
        | none => none
        | some (newSrcs, name, newName) =>
          some (.map (buildStep name newName
            (pkgStep newVersion date (mapSet top "sources" (.seq newSrcs)))))
      | _ => none
  | _ => none

/-- `UpdateChecker.update_yaml_file` (lines 269-361): the new URL comes from
`download_url_template.format(version=new_version, arch=arch)`. -/
def update_yaml_file (digestOf : String → Option String) (tmpl : String)
    (newVersion date : String) (doc : YVal) : Option YVal :=
  updateDoc digestOf (fun url => formatTemplate tmpl newVersion (archOf url)) newVersion date doc

/-- `UpdateChecker.update_yaml_file_with_github_url` (lines 162-267): the new
URL comes from the caller-supplied GitHub release URL. -/
def update_yaml_file_with_github_url (digestOf : String → Option String)
    (newVersion githubUrl date : String) (doc : YVal) : Option YVal :=
  updateDoc digestOf (fun url => deriveGithubUrl githubUrl (archOf url)) newVersion date doc

/-! ## `get_current_version_from_yaml` (lines 137-160) -/

/-- The `for source in sources` loop of `get_current_version_from_yaml`:
return the first version extractable from a record's truthy string URL;
`none` both for "not found" and for the exception on a truthy non-string
record or URL (caught by the enclosing `except`). -/
def currentFromSources : List YVal → Option String
  | [] => none
  | x :: rest =>
    match x with
    | .map m =>
      match (mapGet m "url").getD (.str "") with
      | .str u =>
        if u = "" then currentFromSources rest
        else
          match extract_version_from_filename u with
          | some v => some v
          | none => currentFromSources rest
      | v => if truthy v then none else currentFromSources rest
    | _ => none

/-- `UpdateChecker.get_current_version_from_yaml` (lines 137-160). -/
def get_current_version_from_yaml (doc : YVal) : Option String :=
  match doc with
  | .map top =>
    let sources := (mapGet top "sources").getD (.seq [])
    if !truthy sources then none
    else
      match sources with
      | .seq srcs => currentFromSources srcs
      | _ => none
  | _ => none

/-! ## The orchestrator `run` (lines 379-466) -/

/-- The inputs `run` consumes, made explicit: the result of
`fetch_latest_version`, the documents of the YAML files found by
`find_yaml_files` (in discovery order), the `FORCE_UPDATE`, `USE_GITHUB_URL`,
`GITHUB_RELEASE_URL` and `GITHUB_OUTPUT` environment variables, the digest
oracle, the configured download URL template and the current date. -/
structure Env where
  fetched : Option String
  docs : List YVal
  forceUpdate : Bool
  useGithubUrl : Bool
  githubReleaseUrl : Option String
  githubOutputSet : Bool
  digestOf : String → Option String
  tmpl : String
  date : String

/-- What a call to `run` does: its return value (the process exit status),
the YAML documents it wrote back to disk (in file order), and the lines it
appended to the `GITHUB_OUTPUT` results channel. -/
structure RunResult where
  exitCode : Nat
  writes : List YVal
  outputs : List String

/-- The `need_update` computation of lines 400-410: a manifest needs an
update when its recorded version differs from the latest (or force-update is
set), or when no version could be read from it. -/
def needsUpdate (latest : String) (force : Bool) (docs : List YVal) : Bool :=
  docs.any fun d =>
    match get_current_version_from_yaml d with
    | some cur => cur != latest || force
    | none => true

/-- `UpdateChecker.run` (lines 379-466). -/
def run (env : Env) : RunResult :=
  match env.fetched with
  | none => ⟨1, [], []⟩
  | some latest =>
    if latest = "" then ⟨1, [], []⟩
    else if env.docs.isEmpty then ⟨1, [], []⟩
    else
      let needUpd := needsUpdate latest env.forceUpdate env.docs
      if !needUpd && !env.forceUpdate then ⟨0, [], []⟩
      else if env.useGithubUrl then
        match env.githubReleaseUrl with
        | some gurl =>
          if gurl = "" then ⟨1, [], []⟩
          else
            let writes := env.docs.filterMap
              (update_yaml_file_with_github_url env.digestOf latest gurl env.date)
            if writes.length > 0 then
              ⟨0, writes, if env.githubOutputSet then ["has_changes=true"] else []⟩
            else ⟨1, writes, []⟩
        | none => ⟨1, [], []⟩
      else
        let downloadUrl := formatTemplate env.tmpl latest "amd64"
        ⟨0, [],
          if env.githubOutputSet then
            ["has_changes=true", "new_version=" ++ latest, "download_url=" ++ downloadUrl]
          else []⟩

/-! ## Helper lemmas about digit runs and the matchers -/

/-- Every character of the list is an ASCII digit. -/
def allDigit (r : List Char) : Prop := ∀ c ∈ r, c.isDigit = true

instance (r : List Char) : Decidable (allDigit r) := List.decidableBAll _ r

theorem dot_not_digit : ('.' : Char).isDigit = false := by decide

theorem allDigit_takeWhile (cs : List Char) : allDigit (cs.takeWhile Char.isDigit) :=
  fun _ hc => List.mem_takeWhile_imp hc

theorem takeWhile_all (a : List Char) (h : allDigit a) :
    a.takeWhile Char.isDigit = a := by
  induction a with
  | nil => rfl
  | cons c t ih =>
    have hc : c.isDigit = true := h c (by simp)
    simp only [List.takeWhile_cons, hc, if_true]
    exact congrArg (c :: ·) (ih fun x hx => h x (by simp [hx]))

theorem takeWhile_append_run (a b : List Char) (h : allDigit a) :
    (a ++ b).takeWhile Char.isDigit = a ++ b.takeWhile Char.isDigit := by
  induction a with
  | nil => simp
  | cons c t ih =>
    have hc : c.isDigit = true := h c (by simp)
    simp only [List.cons_append, List.takeWhile_cons, hc, if_true]
    exact congrArg (c :: ·) (ih fun x hx => h x (by simp [hx]))

theorem dropWhile_append_run (a b : List Char) (h : allDigit a) :
    (a ++ b).dropWhile Char.isDigit = b.dropWhile Char.isDigit := by
  induction a with
  | nil => simp
  | cons c t ih =>
    have hc : c.isDigit = true := h c (by simp)
    simp only [List.cons_append, List.dropWhile_cons, hc, if_true]
    exact ih fun x hx => h x (by simp [hx])

theorem takeWhile_append_dot (a t : List Char) (h : allDigit a) :
    (a ++ '.' :: t).takeWhile Char.isDigit = a := by
  rw [takeWhile_append_run a _ h]
  simp [List.takeWhile_cons, dot_not_digit]

theorem dropWhile_append_dot (a t : List Char) (h : allDigit a) :
    (a ++ '.' :: t).dropWhile Char.isDigit = '.' :: t := by
  rw [dropWhile_append_run a _ h]
  simp [List.dropWhile_cons, dot_not_digit]

theorem matchRuns_one_all (r : List Char) (h : allDigit r) (hne : r ≠ []) :
    matchRuns 1 r = some r := by
  simp [matchRuns, takeWhile_all r h, hne]

theorem matchRuns_step (k : Nat) (r cs : List Char) (h : allDigit r) (hne : r ≠ []) :
    matchRuns (k + 2) (r ++ '.' :: cs) =
      (matchRuns (k + 1) cs).map (fun m => r ++ '.' :: m) := by
  simp [matchRuns, takeWhile_append_dot r cs h, dropWhile_append_dot r cs h, hne]

theorem matchRuns_sound (k : Nat) :
    ∀ cs v : List Char, matchRuns k cs = some v →
      matchRuns k v = some v ∧ v <+: cs ∧ v ≠ [] := by
  induction k with
  | zero => intro cs v h; simp [matchRuns] at h
  | succ k ih =>
    intro cs v h
    match k with
    | 0 =>
      simp only [matchRuns] at h
      split at h
      · exact absurd h (by simp)
      · rename_i hne
        obtain rfl : cs.takeWhile Char.isDigit = v := Option.some.inj h
        refine ⟨matchRuns_one_all _ (allDigit_takeWhile cs) hne, ?_, hne⟩
        exact ⟨cs.dropWhile Char.isDigit, List.takeWhile_append_dropWhile _ _⟩
    | k' + 1 =>
      simp only [matchRuns] at h
      split at h
      · exact absurd h (by simp)
      · rename_i hne
        split at h
        · rename_i rest hd
          simp only [Option.map_eq_some'] at h
          obtain ⟨m, hm, rfl⟩ := h
          obtain ⟨hm_self, ⟨t, ht⟩, hm_ne⟩ := ih rest m hm
          have hr : allDigit (cs.takeWhile Char.isDigit) := allDigit_takeWhile cs
          refine ⟨?_, ?_, by simp⟩
          · rw [matchRuns_step k' _ m hr hne, hm_self]; rfl
          · refine ⟨t, ?_⟩
            have hcs : cs.takeWhile Char.isDigit ++ '.' :: rest = cs := by
              rw [← hd]; exact List.takeWhile_append_dropWhile _ _
            calc (cs.takeWhile Char.isDigit ++ '.' :: m) ++ t
                = cs.takeWhile Char.isDigit ++ '.' :: (m ++ t) := by simp
              _ = cs.takeWhile Char.isDigit ++ '.' :: rest := by rw [ht]
              _ = cs := hcs
        · exact absurd h (by simp)

theorem matchRuns_extend (k : Nat) :
    ∀ v rest : List Char, matchRuns k v = some v →
      ∃ w, matchRuns k (v ++ rest) = some w := by
  induction k with
  | zero => intro v rest h; simp [matchRuns] at h
  | succ k ih =>
    intro v rest h
    match k with
    | 0 =>
      simp only [matchRuns] at h
      split at h
      · exact absurd h (by simp)
      · rename_i hne
        have hv : v.takeWhile Char.isDigit = v := Option.some.inj h
        have hall : allDigit v := by rw [← hv]; exact allDigit_takeWhile v
        have hvne : v ≠ [] := fun hnil => hne (by rw [hnil]; rfl)
        refine ⟨v ++ rest.takeWhile Char.isDigit, ?_⟩
        have htw : (v ++ rest).takeWhile Char.isDigit = v ++ rest.takeWhile Char.isDigit :=
          takeWhile_append_run v rest hall
        have hne2 : v ++ rest.takeWhile Char.isDigit ≠ [] := by
          intro hnil
          exact hvne (List.append_eq_nil.mp hnil).1
        simp [matchRuns, htw, hne2]
    | k' + 1 =>
      simp only [matchRuns] at h
      split at h
      · exact absurd h (by simp)
      · rename_i hne
        split at h
        · rename_i rest' hd
          simp only [Option.map_eq_some'] at h
          obtain ⟨m, hm, hv⟩ := h
          have hr : allDigit (v.takeWhile Char.isDigit) := allDigit_takeWhile v
          have hm_self : matchRuns (k' + 1) m = some m := (matchRuns_sound (k' + 1) rest' m hm).1
          obtain ⟨w, hw⟩ := ih m rest hm_self
          refine ⟨v.takeWhile Char.isDigit ++ '.' :: w, ?_⟩
          have happ : v ++ rest = v.takeWhile Char.isDigit ++ '.' :: (m ++ rest) := by
            conv_lhs => rw [← hv]
            simp
          show matchRuns (k' + 2) (v ++ rest) = _
          rw [happ, matchRuns_step k' _ _ hr hne, hw]; rfl
        · exact absurd h (by simp)

theorem searchAux_sound (m : List Char → Option (List Char)) :
    ∀ cs w : List Char, searchAux m cs = some w →
      ∃ suf, suf <:+ cs ∧ m suf = some w := by
  intro cs
  induction cs with
  | nil => intro w h; simp [searchAux] at h
  | cons c cs ih =>
    intro w h
    simp only [searchAux] at h
    cases hm : m (c :: cs) with
    | some r =>
      rw [hm] at h
      have h' : some r = some w := h
      exact ⟨c :: cs, ⟨[], rfl⟩, hm.trans h'⟩
    | none =>
      rw [hm] at h
      have h' : searchAux m cs = some w := h
      obtain ⟨suf, ⟨s, hs⟩, hsm⟩ := ih w h'
      exact ⟨suf, ⟨c :: s, by rw [← hs]; rfl⟩, hsm⟩

theorem searchAux_found (m : List Char → Option (List Char)) :
    ∀ cs suf w : List Char, suf <:+ cs → m suf = some w → suf ≠ [] →
      ∃ w', searchAux m cs = some w' := by
  intro cs
  induction cs with
  | nil =>
    intro suf w hsuf hm hne
    obtain ⟨s, hs⟩ := hsuf
    exact absurd (List.append_eq_nil.mp hs).2 hne
  | cons c cs ih =>
    intro suf w hsuf hm hne
    cases hmc : m (c :: cs) with
    | some r => exact ⟨r, by simp [searchAux, hmc]⟩
    | none =>
      rcases List.suffix_cons_iff.mp hsuf with hfull | htail
      · rw [hfull] at hm; rw [hm] at hmc; exact absurd hmc (by simp)
      · obtain ⟨w', hw'⟩ := ih suf w htail hm hne
        exact ⟨w', by simp [searchAux, hmc, hw']⟩

theorem matchRuns_none (k : Nat) (cs : List Char)
    (h : cs.takeWhile Char.isDigit = []) : matchRuns k cs = none := by
  match k with
  | 0 => rfl
  | 1 => simp [matchRuns, h]
  | k' + 2 => simp [matchRuns, h]

theorem matchFourDigits_none (c : Char) (cs : List Char) (h : c.isDigit = false) :
    matchFourDigits (c :: cs) = none := by
  match cs with
  | [] => rfl
  | [_] => rfl
  | [_, _] => rfl
  | _ :: _ :: _ :: _ => simp [matchFourDigits, h]

theorem matchChain_none (cs : List Char) (h : cs.takeWhile Char.isDigit = []) :
    matchChain cs = none := by
  simp [matchChain, h]

theorem searchAux_nodigit (m : List Char → Option (List Char))
    (hm : ∀ c cs, c.isDigit = false → m (c :: cs) = none) :
    ∀ cs : List Char, (∀ c ∈ cs, c.isDigit = false) → searchAux m cs = none := by
  intro cs
  induction cs with
  | nil => intro _; rfl
  | cons c cs ih =>
    intro h
    have hc : c.isDigit = false := h c (by simp)
    simp only [searchAux, hm c cs hc]
    exact ih fun x hx => h x (by simp [hx])

theorem toList_asString (l : List Char) : (List.asString l).toList = l := rfl

theorem matchRuns_shape2 (r1 r2 : List Char) (h1 : allDigit r1) (h2 : allDigit r2)
    (n1 : r1 ≠ []) (n2 : r2 ≠ []) :
    matchRuns 2 (r1 ++ '.' :: r2) = some (r1 ++ '.' :: r2) := by
  show matchRuns (0 + 2) (r1 ++ '.' :: r2) = some (r1 ++ '.' :: r2)
  rw [matchRuns_step 0 r1 r2 h1 n1, show (0 : Nat) + 1 = 1 from rfl,
    matchRuns_one_all r2 h2 n2]
  rfl

theorem matchRuns_shape3 (r1 r2 r3 : List Char)
    (h1 : allDigit r1) (h2 : allDigit r2) (h3 : allDigit r3)
    (n1 : r1 ≠ []) (n2 : r2 ≠ []) (n3 : r3 ≠ []) :
    matchRuns 3 (r1 ++ '.' :: (r2 ++ '.' :: r3)) =
      some (r1 ++ '.' :: (r2 ++ '.' :: r3)) := by
  show matchRuns (1 + 2) _ = _
  rw [matchRuns_step 1 r1 _ h1 n1, show (1 : Nat) + 1 = 2 from rfl,
    matchRuns_shape2 r2 r3 h2 h3 n2 n3]
  rfl

theorem matchRuns_shape4 (r1 r2 r3 r4 : List Char)
    (h1 : allDigit r1) (h2 : allDigit r2) (h3 : allDigit r3) (h4 : allDigit r4)
    (n1 : r1 ≠ []) (n2 : r2 ≠ []) (n3 : r3 ≠ []) (n4 : r4 ≠ []) :
    matchRuns 4 (r1 ++ '.' :: (r2 ++ '.' :: (r3 ++ '.' :: r4))) =
      some (r1 ++ '.' :: (r2 ++ '.' :: (r3 ++ '.' :: r4))) := by
  show matchRuns (2 + 2) _ = _
  rw [matchRuns_step 2 r1 _ h1 n1, show (2 : Nat) + 1 = 3 from rfl,
    matchRuns_shape3 r2 r3 r4 h2 h3 h4 n2 n3 n4]
  rfl

/-- The string is exactly a full k-part dotted version: the k-run pattern
anchored at its start consumes it entirely. -/
def isDotted (k : Nat) (v : String) : Prop := matchRuns k v.toList = some v.toList

/-- A successful k-run search on a list yields a k-part dotted version that
occurs as a contiguous substring of that list. -/
theorem searchRuns_some_spec (k : Nat) (cs w : List Char)
    (h : searchRuns k cs = some w) :
    matchRuns k w = some w ∧ w <:+: cs ∧ w ≠ [] := by
  obtain ⟨suf, ⟨s, hs⟩, hm⟩ := searchAux_sound _ cs w h
  obtain ⟨hself, ⟨t, ht⟩, hne⟩ := matchRuns_sound k suf w hm
  refine ⟨hself, ⟨s, t, ?_⟩, hne⟩
  rw [List.append_assoc, ht, hs]

/-- If a k-part dotted version occurs somewhere in the list, the k-run search
succeeds. -/
theorem searchRuns_found (k : Nat) (cs v rest : List Char) (hv : matchRuns k v = some v)
    (hvne : v ≠ []) (hsuf : v ++ rest <:+ cs) :
    ∃ w, searchRuns k cs = some w := by
  obtain ⟨w, hw⟩ := matchRuns_extend k v rest hv
  exact searchAux_found (matchRuns k) cs (v ++ rest) w hsuf hw
    (fun hnil => hvne (List.append_eq_nil.mp hnil).1)

theorem searchRuns_nodigit (k : Nat) (cs : List Char)
    (h : ∀ c ∈ cs, c.isDigit = false) : searchRuns k cs = none :=
  searchAux_nodigit _
    (fun c cs' hc => matchRuns_none k (c :: cs') (by simp [List.takeWhile_cons, hc]))
    cs h

theorem searchFourDigits_nodigit (cs : List Char)
    (h : ∀ c ∈ cs, c.isDigit = false) : searchFourDigits cs = none :=
  searchAux_nodigit _ (fun c cs' hc => matchFourDigits_none c cs' hc) cs h

theorem searchChain_nodigit (cs : List Char)
    (h : ∀ c ∈ cs, c.isDigit = false) : searchChain cs = none :=
  searchAux_nodigit _
    (fun c cs' hc => matchChain_none (c :: cs') (by simp [List.takeWhile_cons, hc]))
    cs h

theorem extract_nodigit (fn : String) (h : ∀ c ∈ fn.toList, c.isDigit = false) :
    extract_version_from_filename fn = none := by
  simp only [extract_version_from_filename, searchRuns_nodigit _ _ h,
    searchFourDigits_nodigit _ h, searchChain_nodigit _ h]

theorem matchFourDigits_some_ne (cs w : List Char) (h : matchFourDigits cs = some w) :
    w ≠ [] := by
  match cs with
  | [] => exact absurd h (by simp [matchFourDigits])
  | [_] => exact absurd h (by simp [matchFourDigits])
  | [_, _] => exact absurd h (by simp [matchFourDigits])
  | [_, _, _] => exact absurd h (by simp [matchFourDigits])
  | a :: b :: c :: d :: _ =>
    simp only [matchFourDigits] at h
    split at h
    · cases h; simp
    · exact absurd h (by simp)

theorem matchChain_some_ne (cs w : List Char) (h : matchChain cs = some w) :
    w ≠ [] := by
  simp only [matchChain] at h
  split at h
  · exact absurd h (by simp)
  · rename_i hne
    split at h
    · exact absurd h (by simp)
    · obtain rfl : cs.takeWhile Char.isDigit ++ chainExt (cs.dropWhile Char.isDigit) = w :=
        Option.some.inj h
      intro hnil
      exact hne (List.append_eq_nil.mp hnil).1

theorem searchFourDigits_some_ne (cs w : List Char) (h : searchFourDigits cs = some w) :
    w ≠ [] := by
  obtain ⟨suf, _, hm⟩ := searchAux_sound _ cs w h
  exact matchFourDigits_some_ne suf w hm

theorem searchChain_some_ne (cs w : List Char) (h : searchChain cs = some w) :
    w ≠ [] := by
  obtain ⟨suf, _, hm⟩ := searchAux_sound _ cs w h
  exact matchChain_some_ne suf w hm

theorem asString_ne_empty (w : List Char) (h : w ≠ []) : List.asString w ≠ "" :=
  fun hEq => h (congrArg String.toList hEq)

/-- Whatever `extract_version_from_filename` returns is a non-empty string. -/
theorem extract_ne_empty (fn : String) (v : String)
    (h : extract_version_from_filename fn = some v) : v ≠ "" := by
  simp only [extract_version_from_filename] at h
  split at h
  · rename_i w hw
    cases h
    exact asString_ne_empty w (searchRuns_some_spec 4 _ w hw).2.2
  · split at h
    · rename_i w hw
      cases h
      exact asString_ne_empty w (searchFourDigits_some_ne _ w hw)
    · split at h
      · rename_i w hw
        cases h
        exact asString_ne_empty w (searchRuns_some_spec 3 _ w hw).2.2
      · split at h
        · rename_i w hw
          cases h
          exact asString_ne_empty w (searchRuns_some_spec 2 _ w hw).2.2
        · split at h
          · rename_i w hw
            cases h
            exact asString_ne_empty w (searchChain_some_ne _ w hw)
          · exact absurd h (by simp)

/-! ## Claims C8 and C2: behaviour of `extract_version_from_filename` -/

/-- C8: for every filename containing a substring of the shape `N.N.N.N`
(four dot-separated nonempty digit groups), extraction returns a full
four-part dotted version occurring contiguously in the filename — the 4-part
pattern is tried before every shorter fallback pattern — and for every
filename containing no digits, extraction returns `none`. -/
theorem c8_four_part_and_no_digit (fn : String) :
    (∀ pre r1 r2 r3 r4 post : List Char,
        fn.toList = pre ++ (r1 ++ '.' :: (r2 ++ '.' :: (r3 ++ '.' :: (r4 ++ post)))) →
        allDigit r1 → allDigit r2 → allDigit r3 → allDigit r4 →
        r1 ≠ [] → r2 ≠ [] → r3 ≠ [] → r4 ≠ [] →
        ∃ v : String, extract_version_from_filename fn = some v ∧
          isDotted 4 v ∧ v.toList <:+: fn.toList) ∧
    ((∀ c ∈ fn.toList, c.isDigit = false) → extract_version_from_filename fn = none) := by
  constructor
  · intro pre r1 r2 r3 r4 post heq h1 h2 h3 h4 n1 n2 n3 n4
    have hshape := matchRuns_shape4 r1 r2 r3 r4 h1 h2 h3 h4 n1 n2 n3 n4
    have hsuf : (r1 ++ '.' :: (r2 ++ '.' :: (r3 ++ '.' :: r4))) ++ post <:+ fn.toList := by
      refine ⟨pre, ?_⟩
      rw [heq]
      simp
    obtain ⟨w, hw⟩ :=
      searchRuns_found 4 fn.toList _ post hshape (by simp) hsuf
    obtain ⟨hself, hinf, hne⟩ := searchRuns_some_spec 4 fn.toList w hw
    refine ⟨w.asString, ?_, ?_, ?_⟩
    · have hw' : searchRuns 4 fn.data = some w := hw
      simp [extract_version_from_filename, hw']
    · show matchRuns 4 (w.asString).toList = some (w.asString).toList
      rw [toList_asString]
      exact hself
    · rw [toList_asString]
      exact hinf
  · exact extract_nodigit fn

/-- Witness for C8 at the real Vivaldi file name (and a digit-free name). -/
theorem c8_witness :
    (∃ v : String,
        extract_version_from_filename "vivaldi-stable_7.7.3851.52-1_amd64.deb" = some v ∧
        isDotted 4 v ∧
        v.toList <:+: "vivaldi-stable_7.7.3851.52-1_amd64.deb".toList) ∧
    extract_version_from_filename "nodigits.deb" = none :=
  ⟨(c8_four_part_and_no_digit "vivaldi-stable_7.7.3851.52-1_amd64.deb").1
      "vivaldi-stable_".toList ['7'] ['7'] ['3', '8', '5', '1'] ['5', '2']
      "-1_amd64.deb".toList rfl
      (by decide) (by decide) (by decide) (by decide)
      (by decide) (by decide) (by decide) (by decide),
   (c8_four_part_and_no_digit "nodigits.deb").2 (by decide)⟩

/-- C2 counterexample: the filename `vivaldi-1.2.3456.deb` contains the
three-part dotted version `1.2.3456` and no four-part dotted version, yet
extraction returns the bare 4-digit substring `3456` — the generic 4-digit
fallback pattern is tried before the 3-part dotted pattern and swallows part
of the dotted version. -/
theorem c2_counterexample :
    extract_version_from_filename "vivaldi-1.2.3456.deb" = some "3456" ∧
    searchRuns 4 "vivaldi-1.2.3456.deb".toList = none ∧
    ("1.2.3456".toList <:+: "vivaldi-1.2.3456.deb".toList) ∧
    isDotted 3 "1.2.3456" ∧
    some "3456" ≠ some "1.2.3456" :=
  ⟨rfl, rfl, by decide, rfl, by decide⟩

/-- C2 (amended): the 4-part Vivaldi pattern is tried before all fallback
patterns, but within the fallback list the bare 4-digit pattern precedes the
dotted ones; a filename's full 3-part dotted version is therefore returned
exactly when the filename contains no 4-part dotted version and also no run
of four consecutive digits (the latter stated as failure of the two searches
that precede the 3-part pattern). -/
theorem c2_amended_three_part_fallback (fn : String) :
    ∀ pre r1 r2 r3 post : List Char,
      fn.toList = pre ++ (r1 ++ '.' :: (r2 ++ '.' :: (r3 ++ post))) →
      allDigit r1 → allDigit r2 → allDigit r3 →
      r1 ≠ [] → r2 ≠ [] → r3 ≠ [] →
      searchRuns 4 fn.toList = none →
      searchFourDigits fn.toList = none →
      ∃ v : String, extract_version_from_filename fn = some v ∧
        isDotted 3 v ∧ v.toList <:+: fn.toList := by
  intro pre r1 r2 r3 post heq h1 h2 h3 n1 n2 n3 hs4 hsd
  have hshape := matchRuns_shape3 r1 r2 r3 h1 h2 h3 n1 n2 n3
  have hsuf : (r1 ++ '.' :: (r2 ++ '.' :: r3)) ++ post <:+ fn.toList := by
    refine ⟨pre, ?_⟩
    rw [heq]
    simp
  obtain ⟨w, hw⟩ := searchRuns_found 3 fn.toList _ post hshape (by simp) hsuf
  obtain ⟨hself, hinf, hne⟩ := searchRuns_some_spec 3 fn.toList w hw
  refine ⟨w.asString, ?_, ?_, ?_⟩
  · have hw' : searchRuns 3 fn.data = some w := hw
    have hs4' : searchRuns 4 fn.data = none := hs4
    have hsd' : searchFourDigits fn.data = none := hsd
    simp [extract_version_from_filename, hs4', hsd', hw']
  · show matchRuns 3 (w.asString).toList = some (w.asString).toList
    rw [toList_asString]
    exact hself
  · rw [toList_asString]
    exact hinf

/-- Witness for the amended C2 at a filename with a 3-part version and no
four consecutive digits. -/
theorem c2_amended_witness :
    ∃ v : String, extract_version_from_filename "app-1.2.3.deb" = some v ∧
      isDotted 3 v ∧ v.toList <:+: "app-1.2.3.deb".toList :=
  c2_amended_three_part_fallback "app-1.2.3.deb" "app-".toList ['1'] ['2'] ['3']
    ".deb".toList rfl (by decide) (by decide) (by decide)
    (by decide) (by decide) (by decide) rfl rfl

/-! ## Claims C5 and C10: version normalization -/

theorem splitDots_ne_nil (cs : List Char) : splitDots cs ≠ [] := by
  induction cs with
  | nil => simp [splitDots]
  | cons c cs ih =>
    simp only [splitDots]
    split
    · simp
    · cases h : splitDots cs with
      | nil => simp
      | cons h' t => simp

theorem splitDots_nodot (cs : List Char) : ∀ part ∈ splitDots cs, '.' ∉ part := by
  induction cs with
  | nil =>
    intro part hp
    simp only [splitDots, List.mem_singleton] at hp
    subst hp
    simp
  | cons c cs ih =>
    intro part hp
    simp only [splitDots] at hp
    by_cases hc : c = '.'
    · rw [if_pos hc] at hp
      rcases List.mem_cons.mp hp with rfl | hmem
      · simp
      · exact ih part hmem
    · rw [if_neg hc] at hp
      cases hsp : splitDots cs with
      | nil => exact absurd hsp (splitDots_ne_nil cs)
      | cons h t =>
        rw [hsp] at hp
        rcases List.mem_cons.mp hp with rfl | hmem
        · intro hdot
          rcases List.mem_cons.mp hdot with heq | hmem2
          · exact hc heq.symm
          · exact ih h (by rw [hsp]; simp) hmem2
        · exact ih part (by rw [hsp]; simp [hmem])

theorem splitDots_of_nodot (a : List Char) (h : '.' ∉ a) : splitDots a = [a] := by
  induction a with
  | nil => rfl
  | cons c t ih =>
    have hc : ¬ c = '.' := fun hcc => h (by rw [hcc]; simp)
    have ht : '.' ∉ t := fun hm => h (by simp [hm])
    simp [splitDots, if_neg hc, ih ht]

theorem splitDots_append_dot (a rest : List Char) (h : '.' ∉ a) :
    splitDots (a ++ '.' :: rest) = a :: splitDots rest := by
  induction a with
  | nil => simp [splitDots]
  | cons c t ih =>
    have hc : ¬ c = '.' := fun hcc => h (by rw [hcc]; simp)
    have ht : '.' ∉ t := fun hm => h (by simp [hm])
    simp [splitDots, if_neg hc, ih ht]

/-- C5: the normalization policy of `update_package_version`: an input with
three or more dot-separated components keeps its first three components and
gets the current date appended as fourth field; a 2-component input is padded
with one `0`; a 1-component input is padded with two `0`s. -/
theorem c5_normalization (v date : String) :
    (∀ a b c rest, splitDots v.toList = a :: b :: c :: rest →
        update_package_version v date =
          (a ++ '.' :: (b ++ '.' :: (c ++ '.' :: date.toList))).asString) ∧
    (∀ a b, splitDots v.toList = [a, b] →
        update_package_version v date =
          (a ++ '.' :: (b ++ '.' :: ('0' :: '.' :: date.toList))).asString) ∧
    (∀ a, splitDots v.toList = [a] →
        update_package_version v date =
          (a ++ '.' :: '0' :: '.' :: '0' :: '.' :: date.toList).asString) := by
  refine ⟨?_, ?_, ?_⟩
  · intro a b c rest h
    simp only [update_package_version]
    rw [h]
  · intro a b h
    simp only [update_package_version]
    rw [h]
  · intro a h
    simp only [update_package_version]
    rw [h]

/-- Witness for C5: the spec's two concrete examples, plus the 2-component
case. -/
theorem c5_witness :
    update_package_version "1.2.3" "1007" = "1.2.3.1007" ∧
    update_package_version "1.2" "1007" = "1.2.0.1007" ∧
    update_package_version "42" "1007" = "42.0.0.1007" :=
  ⟨(c5_normalization "1.2.3" "1007").1 ['1'] ['2'] ['3'] [] rfl,
   (c5_normalization "1.2" "1007").2.1 ['1'] ['2'] rfl,
   (c5_normalization "42" "1007").2.2 ['4', '2'] rfl⟩

/-- C10: splitting on `.` always yields at least one component, so
`update_package_version` always takes one of its three listed branches (the
trailing default is unreachable), and — for a dot-free date field, as `MMDD`
dates are — every normalized version has exactly four dot-separated fields
whose last field is the date. -/
theorem c10_four_fields (v date : String) :
    splitDots v.toList ≠ [] ∧
    ('.' ∉ date.toList →
      (splitDots (update_package_version v date).toList).length = 4 ∧
      (splitDots (update_package_version v date).toList).getLast? = some date.toList) := by
  constructor
  · exact splitDots_ne_nil _
  · intro hdate
    cases hsp : splitDots v.toList with
    | nil => exact absurd hsp (splitDots_ne_nil _)
    | cons a t =>
      have ha : '.' ∉ a := splitDots_nodot v.toList a (by rw [hsp]; simp)
      cases t with
      | nil =>
        have hupv : update_package_version v date =
            (a ++ '.' :: '0' :: '.' :: '0' :: '.' :: date.toList).asString := by
          simp only [update_package_version]
          rw [hsp]
        have key : splitDots (update_package_version v date).toList =
            [a, ['0'], ['0'], date.toList] := by
          rw [hupv]
          show splitDots (a ++ '.' :: (['0'] ++ '.' :: (['0'] ++ '.' :: date.toList))) = _
          rw [splitDots_append_dot a _ ha, splitDots_append_dot ['0'] _ (by decide),
            splitDots_append_dot ['0'] _ (by decide), splitDots_of_nodot date.toList hdate]
        rw [key]
        exact ⟨rfl, rfl⟩
      | cons b t' =>
        have hb : '.' ∉ b := splitDots_nodot v.toList b (by rw [hsp]; simp)
        cases t' with
        | nil =>
          have hupv : update_package_version v date =
              (a ++ '.' :: (b ++ '.' :: ('0' :: '.' :: date.toList))).asString := by
            simp only [update_package_version]
            rw [hsp]
          have key : splitDots (update_package_version v date).toList =
              [a, b, ['0'], date.toList] := by
            rw [hupv]
            show splitDots (a ++ '.' :: (b ++ '.' :: (['0'] ++ '.' :: date.toList))) = _
            rw [splitDots_append_dot a _ ha, splitDots_append_dot b _ hb,
              splitDots_append_dot ['0'] _ (by decide), splitDots_of_nodot date.toList hdate]
          rw [key]
          exact ⟨rfl, rfl⟩
        | cons c rest =>
          have hc : '.' ∉ c := splitDots_nodot v.toList c (by rw [hsp]; simp)
          have hupv : update_package_version v date =
              (a ++ '.' :: (b ++ '.' :: (c ++ '.' :: date.toList))).asString := by
            simp only [update_package_version]
            rw [hsp]
          have key : splitDots (update_package_version v date).toList =
              [a, b, c, date.toList] := by
            rw [hupv]
            show splitDots (a ++ '.' :: (b ++ '.' :: (c ++ '.' :: date.toList))) = _
            rw [splitDots_append_dot a _ ha, splitDots_append_dot b _ hb,
              splitDots_append_dot c _ hc, splitDots_of_nodot date.toList hdate]
          rw [key]
          exact ⟨rfl, rfl⟩

/-- Witness for C10 at the Vivaldi build version and an `MMDD` date. -/
theorem c10_witness :
    splitDots "7.7.3851.52".toList ≠ [] ∧
    ((splitDots (update_package_version "7.7.3851.52" "1012").toList).length = 4 ∧
      (splitDots (update_package_version "7.7.3851.52" "1012").toList).getLast? =
        some "1012".toList) :=
  ⟨(c10_four_fields "7.7.3851.52" "1012").1,
   (c10_four_fields "7.7.3851.52" "1012").2 (by decide)⟩

/-! ## Claim C4: outcomes of `fetch_latest_version` -/

/-- C4 counterexample: a network failure and a pattern mismatch on the
fetched body produce the very same caller-visible outcome `None`, so the
caller cannot branch on which of the two occurred. -/
theorem c4_counterexample :
    fetch_latest_version "https://vivaldi.com/download/" .urlError (fun _ => none) = none ∧
    fetch_latest_version "https://vivaldi.com/download/" (.ok "<html></html>")
      (fun _ => none) = none ∧
    fetch_latest_version "https://vivaldi.com/download/" .urlError (fun _ => none) =
      fetch_latest_version "https://vivaldi.com/download/" (.ok "<html></html>")
        (fun _ => none) :=
  ⟨rfl, rfl, rfl⟩

/-- C4 (amended): both a network failure and a pattern mismatch yield the
same outcome `None` to the caller (they are distinguished only in the log
text); both are non-fatal in the sense that the function returns normally
rather than propagating the error, and `run` treats the two identically. -/
theorem c4_amended_same_outcome (url : String) (pat : String → Option String)
    (body : String) :
    fetch_latest_version url .urlError pat = none ∧
    (pat body = none → fetch_latest_version url (.ok body) pat = none) := by
  constructor
  · by_cases h : url = "" <;> simp [fetch_latest_version, h]
  · intro hp
    by_cases h : url = "" <;> simp [fetch_latest_version, h, hp]

/-- Witness for the amended C4. -/
theorem c4_amended_witness :
    fetch_latest_version "https://x" .urlError (fun _ => none) = none ∧
    fetch_latest_version "https://x" (.ok "body") (fun _ => none) = none :=
  ⟨(c4_amended_same_outcome "https://x" (fun _ => none) "body").1,
   (c4_amended_same_outcome "https://x" (fun _ => none) "body").2 rfl⟩

/-! ## Claim C3: URL derivation in GitHub-URL mode -/

/-- A one-source manifest whose record is an amd64 artifact. -/
def docC3 : YVal := .map [
  ("sources", .seq [
    .map [("name", .str "app-1.2.3.4-amd64.deb"),
          ("url", .str "https://host/app-1.2.3.4-amd64.deb")]])]

/-- C3 counterexample: in GitHub-URL mode, for an `amd64` record and a
caller-supplied URL containing `arm64` (and no `{arch}` placeholder), no
`arm64 → amd64` swap happens: the record is written with a URL that still
says `arm64` and mentions `amd64` nowhere.  The literal swap exists only in
the `amd64 → arm64` direction. -/
theorem c3_counterexample :
    archOf "https://host/app-1.2.3.4-amd64.deb" = "amd64" ∧
    strContains "https://g/o/app-2.0.0.1-arm64.deb" "{arch}" = false ∧
    update_yaml_file_with_github_url (fun _ => some "d1") "2.0.0.1"
        "https://g/o/app-2.0.0.1-arm64.deb" "1012" docC3 =
      some (.map [
        ("sources", .seq [
          .map [("name", .str "app-2.0.0.1-amd64.deb"),
                ("url", .str "https://edgeone.gh-proxy.com/https://g/o/app-2.0.0.1-arm64.deb"),
                ("digest", .str "d1")]])]) ∧
    strContains "https://edgeone.gh-proxy.com/https://g/o/app-2.0.0.1-arm64.deb"
      "amd64" = false :=
  ⟨rfl, rfl, rfl, rfl⟩

/-- C3 (amended): the new download URL in GitHub-URL mode substitutes the
architecture tag for `{arch}` when the placeholder is present; without the
placeholder the literal substring swap happens only in the `amd64 → arm64`
direction (when the record's architecture is `arm64` and the URL contains
`amd64`), while for an `amd64` record — or a URL without `amd64` — the URL
is used unchanged; finally the mirror/proxy prefix is prepended iff the
derived URL does not already start with it, so the result always starts with
the proxy prefix. -/
theorem c3_amended_url_derivation (u arch : String) :
    (strContains u "{arch}" = true →
        deriveGithubUrl u arch = addProxy (strReplace u "{arch}" arch)) ∧
    (strContains u "{arch}" = false → arch = "arm64" → strContains u "amd64" = true →
        deriveGithubUrl u arch = addProxy (strReplace u "amd64" "arm64")) ∧
    (strContains u "{arch}" = false → arch ≠ "arm64" →
        deriveGithubUrl u arch = addProxy u) ∧
    (strContains u "{arch}" = false → strContains u "amd64" = false →
        deriveGithubUrl u arch = addProxy u) ∧
    (∀ v : String, strStartsWith v proxyPre = false → addProxy v = proxyPre ++ v) ∧
    (∀ v : String, strStartsWith v proxyPre = true → addProxy v = v) ∧
    strStartsWith (deriveGithubUrl u arch) proxyPre = true := by
  have hpre : ∀ v : String, strStartsWith (proxyPre ++ v) proxyPre = true := by
    intro v
    show (proxyPre.toList.isPrefixOf (proxyPre ++ v).toList) = true
    have : (proxyPre ++ v).toList = proxyPre.toList ++ v.toList := String.data_append _ _
    rw [this]
    exact List.isPrefixOf_iff_prefix.mpr ⟨v.toList, rfl⟩
  have haddProxy : ∀ v : String, strStartsWith (addProxy v) proxyPre = true := by
    intro v
    by_cases h : strStartsWith v proxyPre = true
    · simp [addProxy, h]
    · simp only [Bool.not_eq_true] at h
      simp [addProxy, h, hpre]
  refine ⟨?_, ?_, ?_, ?_, ?_, ?_, haddProxy _⟩
  · intro h
    simp [deriveGithubUrl, h]
  · intro h h2 h3
    simp [deriveGithubUrl, h, h2, h3]
  · intro h h2
    simp [deriveGithubUrl, h, h2]
  · intro h h2
    simp [deriveGithubUrl, h, h2]
  · intro v hv
    simp [addProxy, hv]
  · intro v hv
    simp [addProxy, hv]

/-- Witness for the amended C3. -/
theorem c3_amended_witness :
    deriveGithubUrl "https://g/releases/{arch}/app.deb" "arm64" =
      addProxy (strReplace "https://g/releases/{arch}/app.deb" "{arch}" "arm64") ∧
    deriveGithubUrl "https://g/app-amd64.deb" "arm64" =
      addProxy (strReplace "https://g/app-amd64.deb" "amd64" "arm64") ∧
    deriveGithubUrl "https://g/app-arm64.deb" "amd64" = addProxy "https://g/app-arm64.deb" ∧
    strStartsWith (deriveGithubUrl "https://g/app.deb" "amd64") proxyPre = true :=
  ⟨(c3_amended_url_derivation "https://g/releases/{arch}/app.deb" "arm64").1 rfl,
   (c3_amended_url_derivation "https://g/app-amd64.deb" "arm64").2.1 rfl rfl rfl,
   (c3_amended_url_derivation "https://g/app-arm64.deb" "amd64").2.2.1 rfl (by decide),
   (c3_amended_url_derivation "https://g/app.deb" "amd64").2.2.2.2.2.2⟩

/-! ## Claim C6: frame property of a patching operation -/

theorem mapGet_mapSet_self (m : List (String × YVal)) (k : String) (v : YVal) :
    mapGet (mapSet m k v) k = some v := by
  induction m with
  | nil => simp [mapSet, mapGet]
  | cons kv rest ih =>
    obtain ⟨k0, v0⟩ := kv
    by_cases h : k0 = k
    · simp [mapSet, mapGet, h]
    · simp [mapSet, mapGet, h, ih]

theorem mapGet_mapSet_ne (m : List (String × YVal)) (k k' : String) (v : YVal)
    (h : k' ≠ k) : mapGet (mapSet m k v) k' = mapGet m k' := by
  induction m with
  | nil => simp [mapSet, mapGet, Ne.symm h]
  | cons kv rest ih =>
    obtain ⟨k0, v0⟩ := kv
    by_cases h0 : k0 = k
    · subst h0
      simp [mapSet, mapGet, Ne.symm h]
    · simp only [mapSet, if_neg h0, mapGet]
      by_cases h1 : k0 = k'
      · simp [h1]
      · simp [h1, ih]

theorem pkgStep_frame (nv date : String) (t : List (String × YVal)) :
    (∀ k, k ≠ "package" → mapGet (pkgStep nv date t) k = mapGet t k) ∧
    ((∀ pm, mapGet t "package" ≠ some (.map pm)) → pkgStep nv date t = t) ∧
    (∀ pm, mapGet t "package" = some (.map pm) →
      mapGet (pkgStep nv date t) "package" =
        some (.map (mapSet pm "version" (.str (update_package_version nv date))))) := by
  cases hp : mapGet t "package" with
  | none =>
    exact ⟨fun k hk => by simp [pkgStep, hp], fun _ => by simp [pkgStep, hp],
      fun pm hpm => absurd hpm (by simp)⟩
  | some v =>
    cases v with
    | str s =>
      exact ⟨fun k hk => by simp [pkgStep, hp], fun _ => by simp [pkgStep, hp],
        fun pm hpm => absurd hpm (by simp)⟩
    | seq l =>
      exact ⟨fun k hk => by simp [pkgStep, hp], fun _ => by simp [pkgStep, hp],
        fun pm hpm => absurd hpm (by simp)⟩
    | map pm =>
      refine ⟨fun k hk => ?_, fun hno => absurd rfl (hno pm), fun pm' hpm' => ?_⟩
      · simp only [pkgStep, hp]
        exact mapGet_mapSet_ne t "package" k _ hk
      · obtain rfl : pm = pm' := YVal.map.inj (Option.some.inj hpm')
        simp only [pkgStep, hp]
        exact mapGet_mapSet_self t "package" _

theorem buildStep_frame (name newName : String) (t : List (String × YVal)) :
    (∀ k, k ≠ "build" → mapGet (buildStep name newName t) k = mapGet t k) ∧
    ((∀ b, mapGet t "build" ≠ some (.str b)) → buildStep name newName t = t) ∧
    (∀ b, mapGet t "build" = some (.str b) →
      mapGet (buildStep name newName t) "build" =
        some (.str (strReplace b name newName))) := by
  cases hb : mapGet t "build" with
  | none =>
    exact ⟨fun k hk => by simp [buildStep, hb], fun _ => by simp [buildStep, hb],
      fun b hbb => absurd hbb (by simp)⟩
  | some v =>
    cases v with
    | map pm =>
      exact ⟨fun k hk => by simp [buildStep, hb], fun _ => by simp [buildStep, hb],
        fun b hbb => absurd hbb (by simp)⟩
    | seq l =>
      exact ⟨fun k hk => by simp [buildStep, hb], fun _ => by simp [buildStep, hb],
        fun b hbb => absurd hbb (by simp)⟩
    | str b =>
      refine ⟨fun k hk => ?_, fun hno => absurd rfl (hno b), fun b' hbb' => ?_⟩
      · simp only [buildStep, hb]
        exact mapGet_mapSet_ne t "build" k _ hk
      · obtain rfl : b = b' := YVal.str.inj (Option.some.inj hbb')
        simp only [buildStep, hb]
        exact mapGet_mapSet_self t "build" _

/-- A successful record update only touches the `url`, `digest` and `name`
keys of the record's mapping. -/
theorem tryUpdateSource_frame (digestOf : String → Option String)
    (mkUrl : String → String) (nv : String) (m mu : List (String × YVal))
    (oldN newN : String)
    (h : tryUpdateSource digestOf mkUrl nv m = some (some (mu, oldN, newN))) :
    ∀ k, k ≠ "url" → k ≠ "digest" → k ≠ "name" → mapGet mu k = mapGet m k := by
  intro k hu hd hn
  simp only [tryUpdateSource] at h
  split at h
  · exact absurd h (by simp)
  · split at h
    · split at h
      · exact absurd h (by simp)
      · split at h
        · split at h
          · exact absurd h (by simp)
          · simp only [Option.some.injEq, Prod.mk.injEq] at h
            obtain ⟨hm', _, _⟩ := h
            rw [← hm']
            rw [mapGet_mapSet_ne _ "name" k _ hn, mapGet_mapSet_ne _ "digest" k _ hd,
              mapGet_mapSet_ne _ "url" k _ hu]
        · exact absurd h (by simp)
    · exact absurd h (by simp)

/-- Decomposition of the source-update loop: on success, exactly one record
(the first one passing all checks) is replaced, every record before it was
skipped by a `continue`, and every record after it is untouched. -/
theorem updateSources_decomp (digestOf : String → Option String)
    (mkUrl : String → String) (nv : String) :
    ∀ srcs newSrcs : List YVal, ∀ oldN newN : String,
      updateSources digestOf mkUrl nv srcs = some (newSrcs, oldN, newN) →
      ∃ l₁ m mu l₂,
        srcs = l₁ ++ YVal.map m :: l₂ ∧
        newSrcs = l₁ ++ YVal.map mu :: l₂ ∧
        (∀ x ∈ l₁, ∃ mx, x = YVal.map mx ∧
          tryUpdateSource digestOf mkUrl nv mx = some none) ∧
        tryUpdateSource digestOf mkUrl nv m = some (some (mu, oldN, newN)) := by
  intro srcs
  induction srcs with
  | nil => intro newSrcs oldN newN h; simp [updateSources] at h
  | cons x rest ih =>
    intro newSrcs oldN newN h
    cases x with
    | str s => simp [updateSources] at h
    | seq l => simp [updateSources] at h
    | map m =>
      simp only [updateSources] at h
      cases ht : tryUpdateSource digestOf mkUrl nv m with
      | none => rw [ht] at h; simp at h
      | some o =>
        cases o with
        | none =>
          rw [ht] at h
          simp only [Option.map_eq_some'] at h
          obtain ⟨⟨ns', o', n'⟩, hrest, heq⟩ := h
          simp only [Prod.mk.injEq] at heq
          obtain ⟨h1, h2, h3⟩ := heq
          obtain ⟨l₁, mm, mm', l₂, e1, e2, hskip, hupd⟩ := ih ns' o' n' hrest
          refine ⟨YVal.map m :: l₁, mm, mm', l₂, by simp [e1], ?_, ?_, ?_⟩
          · rw [← h1, e2]; simp
          · intro y hy
            rcases List.mem_cons.mp hy with rfl | hmem
            · exact ⟨m, rfl, ht⟩
            · exact hskip y hmem
          · rw [h2, h3] at hupd; exact hupd
        | some t =>
          obtain ⟨mu, o', n'⟩ := t
          rw [ht] at h
          simp only [Option.some.injEq, Prod.mk.injEq] at h
          obtain ⟨h1, h2, h3⟩ := h
          refine ⟨[], m, mu, rest, rfl, by rw [← h1]; rfl, fun y hy => absurd hy (by simp), ?_⟩
          rw [h2, h3] at ht
          exact ht

/-- C6 (amended): a successful patching operation modifies at most the
`url`, `digest` and `name` keys of a single source record — the first record
passing all of the loop's checks (truthy name and url, extractable version,
successful digest), every earlier record having been skipped by a
`continue` — the `version` key inside an existing `package` mapping, and an
existing textual `build` field; every other top-level key, every other key
of the updated record and of the `package` mapping, and every other source
record survive the round trip unchanged, and a `package` or `build` section
is never created when absent. -/
theorem c6_amended_frame (digestOf : String → Option String) (mkUrl : String → String)
    (nv date : String) (doc doc' : YVal)
    (h : updateDoc digestOf mkUrl nv date doc = some doc') :
    ∃ top top' : List (String × YVal),
      doc = .map top ∧ doc' = .map top' ∧
      (∀ k, k ≠ "sources" → k ≠ "package" → k ≠ "build" →
        mapGet top' k = mapGet top k) ∧
      ((∀ pm, mapGet top "package" ≠ some (.map pm)) →
        mapGet top' "package" = mapGet top "package") ∧
      (∀ pm, mapGet top "package" = some (.map pm) →
        ∃ pm', mapGet top' "package" = some (.map pm') ∧
          mapGet pm' "version" = some (.str (update_package_version nv date)) ∧
          ∀ k, k ≠ "version" → mapGet pm' k = mapGet pm k) ∧
      ((∀ b, mapGet top "build" ≠ some (.str b)) →
        mapGet top' "build" = mapGet top "build") ∧
      ∃ oldN newN : String,
        (∀ b, mapGet top "build" = some (.str b) →
          mapGet top' "build" = some (.str (strReplace b oldN newN))) ∧
        ∃ srcs l₁ m m' l₂,
          mapGet top "sources" = some (.seq srcs) ∧
          srcs = l₁ ++ YVal.map m :: l₂ ∧
          mapGet top' "sources" = some (.seq (l₁ ++ YVal.map m' :: l₂)) ∧
          (∀ x ∈ l₁, ∃ mx, x = YVal.map mx ∧
            tryUpdateSource digestOf mkUrl nv mx = some none) ∧
          (∀ k, k ≠ "url" → k ≠ "digest" → k ≠ "name" → mapGet m' k = mapGet m k) := by
  cases doc with
  | str s => simp [updateDoc] at h
  | seq l => simp [updateDoc] at h
  | map top =>
    simp only [updateDoc] at h
    cases hs : mapGet top "sources" with
    | none => rw [hs] at h; simp [truthy] at h
    | some sv =>
      rw [hs] at h
      simp only [Option.getD_some] at h
      cases htr : truthy sv with
      | false => rw [htr] at h; simp at h
      | true =>
        rw [htr] at h
        simp only [Bool.not_true, Bool.false_eq_true, if_false] at h
        cases sv with
        | str s2 => simp at h
        | map mm => simp at h
        | seq srcs =>
          have h2 : (match updateSources digestOf mkUrl nv srcs with
              | none => none
              | some (newSrcs, name, newName) =>
                some (YVal.map (buildStep name newName
                  (pkgStep nv date (mapSet top "sources" (YVal.seq newSrcs)))))) =
              some doc' := h
          clear h
          cases hu : updateSources digestOf mkUrl nv srcs with
          | none => rw [hu] at h2; simp at h2
          | some trip =>
            obtain ⟨newSrcs, oldN, newN⟩ := trip
            rw [hu] at h2
            have hdoc' : doc' =
                YVal.map (buildStep oldN newN (pkgStep nv date
                  (mapSet top "sources" (.seq newSrcs)))) :=
              (Option.some.inj h2).symm
            obtain ⟨l₁, m, m', l₂, e1, e2, hskip, hupd⟩ :=
              updateSources_decomp digestOf mkUrl nv srcs newSrcs oldN newN hu
            have hbf := buildStep_frame oldN newN
              (pkgStep nv date (mapSet top "sources" (.seq newSrcs)))
            have hpf := pkgStep_frame nv date (mapSet top "sources" (.seq newSrcs))
            have hpkg_t1 : mapGet (mapSet top "sources" (.seq newSrcs)) "package" =
                mapGet top "package" :=
              mapGet_mapSet_ne top "sources" "package" _ (by decide)
            have hbuild_t1 : mapGet (mapSet top "sources" (.seq newSrcs)) "build" =
                mapGet top "build" :=
              mapGet_mapSet_ne top "sources" "build" _ (by decide)
            have hbuild_t2 : mapGet (pkgStep nv date (mapSet top "sources" (.seq newSrcs)))
                "build" = mapGet top "build" :=
              (hpf.1 "build" (by decide)).trans hbuild_t1
            have hsrc_t2 : mapGet (pkgStep nv date (mapSet top "sources" (.seq newSrcs)))
                "sources" = some (.seq newSrcs) :=
              (hpf.1 "sources" (by decide)).trans (mapGet_mapSet_self top "sources" _)
            refine ⟨top, _, rfl, hdoc', ?_, ?_, ?_, ?_, oldN, newN, ?_, ?_⟩
            · intro k hks hkp hkb
              rw [hbf.1 k hkb, hpf.1 k hkp, mapGet_mapSet_ne top "sources" k _ hks]
            · intro hno
              have hno1 : ∀ pm, mapGet (mapSet top "sources" (.seq newSrcs)) "package" ≠
                  some (.map pm) := by
                intro pm
                rw [hpkg_t1]
                exact hno pm
              rw [hbf.1 "package" (by decide), hpf.2.1 hno1, hpkg_t1]
            · intro pm hpm
              refine ⟨mapSet pm "version" (.str (update_package_version nv date)), ?_, ?_, ?_⟩
              · rw [hbf.1 "package" (by decide)]
                exact hpf.2.2 pm (hpkg_t1.trans hpm)
              · exact mapGet_mapSet_self pm "version" _
              · intro k hk
                exact mapGet_mapSet_ne pm "version" k _ hk
            · intro hno
              have hno2 : ∀ b, mapGet (pkgStep nv date (mapSet top "sources" (.seq newSrcs)))
                  "build" ≠ some (.str b) := by
                intro b
                rw [hbuild_t2]
                exact hno b
              rw [hbf.2.1 hno2, hbuild_t2]
            · intro b hb
              exact hbf.2.2 b (hbuild_t2.trans hb)
            · refine ⟨srcs, l₁, m, m', l₂, hs, e1, ?_, hskip,
                tryUpdateSource_frame digestOf mkUrl nv m m' oldN newN hupd⟩
              rw [← e2, hbf.1 "sources" (by decide)]
              exact hsrc_t2


/-- A manifest whose first source record has an extractable version in its
URL but no `name` key, and whose second record is complete. -/
def docC6 : YVal := .map [
  ("package", .map [("id", .str "com.vivaldi.vivaldi"), ("version", .str "1.0.0.0")]),
  ("sources", .seq [
    .map [("url", .str "https://host/first-1.2.3.4.deb")],
    .map [("name", .str "second-1.2.3.4.deb"),
          ("url", .str "https://host/second-1.2.3.4.deb")]])]

/-- The document `update_yaml_file` writes for `docC6`. -/
def docC6res : YVal := .map [
  ("package", .map [("id", .str "com.vivaldi.vivaldi"), ("version", .str "2.0.0.0101")]),
  ("sources", .seq [
    .map [("url", .str "https://host/first-1.2.3.4.deb")],
    .map [("name", .str "second-2.0.0.0.deb"),
          ("url", .str "https://dl/2.0.0.0_amd64.deb"),
          ("digest", .str "cafe")]])]

/-- C6 counterexample: the first source record of `docC6` has an extractable
version in its URL, yet (because its `name` is missing, hence falsy) the
patching operation skips it and instead modifies the `url`, `digest` and
`name` of the *second* record — so the updated record is not "the single
first source record from which a version is extractable". -/
theorem c6_counterexample :
    extract_version_from_filename "https://host/first-1.2.3.4.deb" = some "1.2.3.4" ∧
    update_yaml_file (fun _ => some "cafe") "https://dl/{version}_{arch}.deb"
        "2.0.0.0" "0101" docC6 = some docC6res ∧
    docC6res ≠ .map [
      ("package", .map [("id", .str "com.vivaldi.vivaldi"), ("version", .str "2.0.0.0101")]),
      ("sources", .seq [
        .map [("url", .str "https://host/first-1.2.3.4.deb")],
        .map [("name", .str "second-1.2.3.4.deb"),
              ("url", .str "https://host/second-1.2.3.4.deb")]])] := by
  refine ⟨rfl, rfl, ?_⟩
  intro hEq
  have := YVal.map.inj hEq
  simp at this

/-- Witness for the amended C6 frame theorem at `docC6`. -/
theorem c6_amended_witness :
    ∃ top top' : List (String × YVal),
      docC6 = .map top ∧ docC6res = .map top' ∧
      (∀ k, k ≠ "sources" → k ≠ "package" → k ≠ "build" →
        mapGet top' k = mapGet top k) ∧
      ((∀ pm, mapGet top "package" ≠ some (.map pm)) →
        mapGet top' "package" = mapGet top "package") ∧
      (∀ pm, mapGet top "package" = some (.map pm) →
        ∃ pm', mapGet top' "package" = some (.map pm') ∧
          mapGet pm' "version" = some (.str (update_package_version "2.0.0.0" "0101")) ∧
          ∀ k, k ≠ "version" → mapGet pm' k = mapGet pm k) ∧
      ((∀ b, mapGet top "build" ≠ some (.str b)) →
        mapGet top' "build" = mapGet top "build") ∧
      ∃ oldN newN : String,
        (∀ b, mapGet top "build" = some (.str b) →
          mapGet top' "build" = some (.str (strReplace b oldN newN))) ∧
        ∃ srcs l₁ m m' l₂,
          mapGet top "sources" = some (.seq srcs) ∧
          srcs = l₁ ++ YVal.map m :: l₂ ∧
          mapGet top' "sources" = some (.seq (l₁ ++ YVal.map m' :: l₂)) ∧
          (∀ x ∈ l₁, ∃ mx, x = YVal.map mx ∧
            tryUpdateSource (fun _ => some "cafe")
              (fun url => formatTemplate "https://dl/{version}_{arch}.deb" "2.0.0.0"
                (archOf url)) "2.0.0.0" mx = some none) ∧
          (∀ k, k ≠ "url" → k ≠ "digest" → k ≠ "name" → mapGet m' k = mapGet m k) :=
  c6_amended_frame (fun _ => some "cafe")
    (fun url => formatTemplate "https://dl/{version}_{arch}.deb" "2.0.0.0" (archOf url))
    "2.0.0.0" "0101" docC6 docC6res rfl


/-! ## Claims C7, C9, C1: the orchestrator `run` -/

theorem currentFromSources_extract (srcs : List YVal) (v : String)
    (h : currentFromSources srcs = some v) :
    ∃ u, extract_version_from_filename u = some v := by
  induction srcs with
  | nil => simp [currentFromSources] at h
  | cons x rest ih =>
    cases x with
    | str s => simp [currentFromSources] at h
    | seq l => simp [currentFromSources] at h
    | map m =>
      simp only [currentFromSources] at h
      split at h
      next u hu =>
        split at h
        · exact ih h
        · split at h
          next v' hv' => exact ⟨u, hv'.trans h⟩
          next => exact ih h
      next w hw =>
        split at h
        · exact absurd h (by simp)
        · exact ih h

theorem get_current_extract (doc : YVal) (v : String)
    (h : get_current_version_from_yaml doc = some v) :
    ∃ u, extract_version_from_filename u = some v := by
  cases doc with
  | str s => simp [get_current_version_from_yaml] at h
  | seq l => simp [get_current_version_from_yaml] at h
  | map top =>
    simp only [get_current_version_from_yaml] at h
    split at h
    · exact absurd h (by simp)
    · split at h
      · exact currentFromSources_extract _ v h
      · exact absurd h (by simp)

/-- A version read back from a manifest is never the empty string. -/
theorem get_current_ne_empty (doc : YVal) (v : String)
    (h : get_current_version_from_yaml doc = some v) : v ≠ "" := by
  obtain ⟨u, hu⟩ := get_current_extract doc v h
  exact extract_ne_empty u v hu

/-- C7: if the version recorded in every discovered manifest equals the
freshly fetched latest version and `FORCE_UPDATE` is not set, `run` performs
zero file writes, emits nothing (in particular no `has_changes` entry) to
the results channel, and returns exit code 0. -/
theorem c7_no_change_no_write (env : Env) (latest : String)
    (h1 : env.fetched = some latest)
    (h2 : env.docs ≠ [])
    (h3 : ∀ d ∈ env.docs, get_current_version_from_yaml d = some latest)
    (h4 : env.forceUpdate = false) :
    run env = ⟨0, [], []⟩ := by
  have hne : latest ≠ "" := by
    cases hd : env.docs with
    | nil => exact absurd hd h2
    | cons d t => exact get_current_ne_empty d latest (h3 d (by rw [hd]; simp))
  have hie : env.docs.isEmpty = false := by
    cases hd : env.docs with
    | nil => exact absurd hd h2
    | cons d t => rfl
  have hnu : needsUpdate latest false env.docs = false := by
    simp only [needsUpdate, List.any_eq_false]
    intro d hd
    rw [h3 d hd]
    simp
  simp [run, h1, hne, hie, hnu, h4]

/-- A one-source manifest already at the latest version. -/
def docC7 : YVal := .map [
  ("sources", .seq [
    .map [("name", .str "vivaldi-7.7.3851.52.deb"),
          ("url", .str "https://host/vivaldi-7.7.3851.52.deb")]])]

/-- Witness for C7. -/
theorem c7_witness :
    run { fetched := some "7.7.3851.52", docs := [docC7], forceUpdate := false,
          useGithubUrl := false, githubReleaseUrl := none, githubOutputSet := true,
          digestOf := fun _ => none, tmpl := "https://dl/{version}_{arch}.deb",
          date := "1012" } = ⟨0, [], []⟩ :=
  c7_no_change_no_write _ "7.7.3851.52" rfl (by simp)
    (fun d hd => by rw [List.mem_singleton.mp hd]; rfl) rfl

/-- C9: in the primary (non-GitHub) mode the `download_url` emitted to the
results channel is built with the architecture fixed to `amd64`, regardless
of the discovered manifests (which only enter through `needsUpdate`). -/
theorem c9_amd64_download_url (env : Env) (latest : String)
    (h1 : env.fetched = some latest) (h2 : latest ≠ "") (h3 : env.docs ≠ [])
    (h4 : needsUpdate latest env.forceUpdate env.docs = true)
    (h5 : env.useGithubUrl = false) (h6 : env.githubOutputSet = true) :
    ("download_url=" ++ formatTemplate env.tmpl latest "amd64") ∈ (run env).outputs := by
  have hie : env.docs.isEmpty = false := by
    cases hd : env.docs with
    | nil => exact absurd hd h3
    | cons d t => rfl
  simp [run, h1, h2, hie, h4, h5, h6]

/-- A one-source arm64 manifest that is out of date. -/
def docC9 : YVal := .map [
  ("sources", .seq [
    .map [("name", .str "vivaldi-1.0-arm64.deb"),
          ("url", .str "https://host/vivaldi-1.0-arm64.deb")]])]

/-- The run environment of the C9 witness: a single arm64 manifest. -/
def envC9 : Env :=
  { fetched := some "2.0", docs := [docC9], forceUpdate := false, useGithubUrl := false,
    githubReleaseUrl := none, githubOutputSet := true, digestOf := fun _ => none,
    tmpl := "https://dl/{version}_{arch}.deb", date := "1012" }

/-- Witness for C9: even with only an arm64 manifest discovered, the
emitted download URL uses `amd64`. -/
theorem c9_witness :
    ("download_url=" ++ formatTemplate envC9.tmpl "2.0" "amd64") ∈ (run envC9).outputs :=
  c9_amd64_download_url envC9 "2.0" rfl (by decide) (by simp [envC9]) rfl rfl rfl

/-- A one-source manifest that is out of date. -/
def docC1 : YVal := .map [
  ("sources", .seq [
    .map [("name", .str "vivaldi-1.0.deb"),
          ("url", .str "https://host/vivaldi-1.0.deb")]])]

/-- The run environment of the C1 counterexample: primary mode, one stale
manifest, and a digest oracle that always fails (so any patch attempt on the
manifest would fail). -/
def envC1 : Env :=
  { fetched := some "2.0", docs := [docC1], forceUpdate := false,
    useGithubUrl := false, githubReleaseUrl := none, githubOutputSet := true,
    digestOf := fun _ => none, tmpl := "https://dl/{version}_{arch}.deb", date := "1012" }

/-- C1 counterexample: in primary mode a manifest needs updating and every
patch attempt would fail (`update_yaml_file` returns `False` under this
digest oracle), yet `run` performs zero patch attempts and zero writes,
returns exit code 0 — not the claimed failure exit 1 for "zero patch
successes" — and still emits `has_changes=true` with the new version and
URL. -/
theorem c1_counterexample :
    needsUpdate "2.0" false [docC1] = true ∧
    update_yaml_file (fun _ => none) "https://dl/{version}_{arch}.deb"
      "2.0" "1012" docC1 = none ∧
    run envC1 = ⟨0, [],
      ["has_changes=true", "new_version=2.0",
       "download_url=https://dl/2.0_amd64.deb"]⟩ :=
  ⟨rfl, rfl, rfl⟩

/-- C1 (amended): in the primary (non-GitHub) mode, when at least one
manifest needs updating, `run` does not attempt to patch any manifest; it
unconditionally terminates with success (exit 0), performs zero file writes,
and emits `has_changes=true` plus the new version and the amd64 download URL
to the results channel when that channel is configured.  (Patching with
success counting — exit 1 on zero successes — exists only in the GitHub-URL
mode, which emits only `has_changes=true`.) -/
theorem c1_amended_primary_no_patch (env : Env) (latest : String)
    (h1 : env.fetched = some latest) (h2 : latest ≠ "") (h3 : env.docs ≠ [])
    (h4 : needsUpdate latest env.forceUpdate env.docs = true)
    (h5 : env.useGithubUrl = false) :
    run env = ⟨0, [],
      if env.githubOutputSet then
        ["has_changes=true", "new_version=" ++ latest,
         "download_url=" ++ formatTemplate env.tmpl latest "amd64"]
      else []⟩ := by
  have hie : env.docs.isEmpty = false := by
    cases hd : env.docs with
    | nil => exact absurd hd h3
    | cons d t => rfl
  simp [run, h1, h2, hie, h4, h5]

/-- Witness for the amended C1 at the counterexample environment. -/
theorem c1_amended_witness :
    run envC1 = ⟨0, [],
      if envC1.githubOutputSet then
        ["has_changes=true", "new_version=" ++ "2.0",
         "download_url=" ++ formatTemplate envC1.tmpl "2.0" "amd64"]
      else []⟩ :=
  c1_amended_primary_no_patch envC1 "2.0" rfl (by decide) (by simp [envC1]) rfl rfl

end UpdateChecker
